import Mathlib

/-
Verification development for the GRPO trainer
(swift/trainers/rlhf_trainer/grpo_trainer.py).

The numeric tensor operations are embedded shallowly: tensors become
lists of real numbers (or lists of rows), torch reductions become list
folds, and value-level tensor algebra becomes real arithmetic.  Each
definition mirrors one expression of the Python source; the line it
comes from is noted next to it.
-/

/-! ## Loss computation (compute_loss, lines 310-335) -/

/-- Value-level semantics of Tensor.detach: the detached tensor holds the
same value (only the gradient flow differs, which is outside this
value-level embedding). -/
def detach (x : ℝ) : ℝ := x

/-- Per-token KL estimate, line 319:
torch.exp(ref - pol) - (ref - pol) - 1, evaluated at one token. -/
noncomputable def per_token_kl (ref_lp pol_lp : ℝ) : ℝ :=
  Real.exp (ref_lp - pol_lp) - (ref_lp - pol_lp) - 1

/-- Per-token loss before masking, lines 323-324:
per_token_loss = exp(pol_lp - pol_lp.detach()) * advantage, then
negated after subtracting beta * kl. -/
noncomputable def per_token_loss (beta advantage pol_lp ref_lp : ℝ) : ℝ :=
  -(Real.exp (pol_lp - detach pol_lp) * advantage - beta * per_token_kl ref_lp pol_lp)

/-! ## Completion span bookkeeping (_prepare_inputs, lines 232-236) -/

/-- torch.ne(labels, -100).int() applied to one row of the labels tensor. -/
def neSentinel (row : List ℤ) : List ℕ :=
  row.map (fun x => if x = -100 then 0 else 1)

/-- torch argmax over the last dimension: index of the first occurrence of
the maximal element (torch returns the first maximal index; on an
all-equal row this is index 0). -/
def argmaxFirst (xs : List ℕ) : ℕ :=
  xs.indexOf (xs.foldr max 0)

/-- One row's contribution to logits_to_keep, line 234: the row length
(labels.shape[-1]) minus the index of its first non-sentinel label. -/
def rowSpan (row : List ℤ) : ℕ :=
  row.length - argmaxFirst (neSentinel row)

/-- logits_to_keep, line 234: the maximum of rowSpan over the batch
(.max().item()). -/
def logits_to_keep (labels : List (List ℤ)) : ℕ :=
  (labels.map rowSpan).foldr max 0

/-- Python trailing slice row[-k:] (line 236 slices labels[:, -k:]).
For k = 0 the Python slice [-0:] is [0:], i.e. the whole row; otherwise
it keeps the last min(k, length) entries. -/
def trailingSlice (k : ℕ) (row : List ℤ) : List ℤ :=
  if k = 0 then row else row.drop (row.length - k)

/-- completion_mask for one row, line 236: labels[:, -k:] != -100. -/
def completion_mask (k : ℕ) (row : List ℤ) : List Bool :=
  (trailingSlice k row).map (fun x => decide (x ≠ -100))

/-- completion_mask.sum(dim=1) for one row (line 326 divisor and
line 329 completion length metric): booleans count as 0/1. -/
def maskSum (mask : List Bool) : ℕ :=
  (mask.map (fun b => if b then 1 else 0)).sum

/-- Row-wise masked mean of line 326:
(per_token_loss * completion_mask).sum(dim=1) / completion_mask.sum(dim=1),
for one row.  Division is real division (0/0 = 0 stands in for torch NaN,
which is what the division-by-zero safety claim is about). -/
noncomputable def masked_row_mean (vals : List ℝ) (mask : List Bool) : ℝ :=
  (List.zipWith (fun v b => v * (if b then (1 : ℝ) else 0)) vals mask).sum / (maskSum mask : ℝ)

/-! ## Theorems for the loss-side claims -/

/-- C2: the per-token KL estimate exp(d) - d - 1 with d = ref_lp - pol_lp
is nonnegative for every pair of log-probabilities, and vanishes exactly
when the reference and policy log-probabilities coincide. -/
theorem kl_estimate_nonneg_and_zero_iff (ref_lp pol_lp : ℝ) :
    0 ≤ per_token_kl ref_lp pol_lp ∧ (per_token_kl ref_lp pol_lp = 0 ↔ ref_lp = pol_lp) := by
  constructor
  · have h := Real.add_one_le_exp (ref_lp - pol_lp)
    simp only [per_token_kl]
    linarith
  · constructor
    · intro h
      by_contra hne
      have hx : ref_lp - pol_lp ≠ 0 := sub_ne_zero.mpr hne
      have hlt := Real.add_one_lt_exp hx
      simp only [per_token_kl] at h
      linarith
    · intro h
      simp [per_token_kl, h]

/-- C3: since exp(pol_lp - detach(pol_lp)) = exp 0 = 1 in value, the
per-token loss before masking is exactly -(advantage - beta * kl). -/
theorem per_token_loss_eq_neg_adv_sub_beta_kl (beta advantage pol_lp ref_lp : ℝ) :
    per_token_loss beta advantage pol_lp ref_lp
      = -(advantage - beta * per_token_kl ref_lp pol_lp) := by
  simp [per_token_loss, detach, sub_self, Real.exp_zero]

/-! ## Helper lemmas on foldr max and counting -/

lemma le_foldr_max_of_mem (l : List ℕ) (x : ℕ) (h : x ∈ l) : x ≤ l.foldr max 0 := by
  induction l with
  | nil => cases h
  | cons a t ih =>
    rcases List.mem_cons.mp h with rfl | ht
    · exact le_max_left _ _
    · exact le_trans (ih ht) (le_max_right _ _)

lemma foldr_max_mem (l : List ℕ) (h : l ≠ []) : l.foldr max 0 ∈ l := by
  induction l with
  | nil => exact absurd rfl h
  | cons a t ih =>
    cases t with
    | nil => simp
    | cons b u =>
      rcases le_total (List.foldr max 0 (b :: u)) a with hle | hle
      · have heq : List.foldr max 0 (a :: b :: u) = a := max_eq_left hle
        rw [heq]
        exact List.mem_cons_self _ _
      · have heq : List.foldr max 0 (a :: b :: u) = List.foldr max 0 (b :: u) :=
          max_eq_right hle
        rw [heq]
        exact List.mem_cons_of_mem _ (ih (by simp))

lemma maskSum_eq_countP (mask : List Bool) : maskSum mask = mask.countP id := by
  induction mask with
  | nil => rfl
  | cons b t ih =>
    cases b <;> simp [maskSum, List.countP_cons, id] at * <;> omega

/-! ## Theorems for the completion-span claims -/

/-- C4: logits_to_keep is the maximum over rows of (row length minus the
index of the first non-sentinel label): it bounds every row's span and is
attained by some row; on the two-row example [-100,-100,5,6,-100] and
[-100,3,4,5,6] the first non-sentinel indices are 2 and 1, the spans are
3 and 4, and logits_to_keep = 4. -/
theorem logits_to_keep_spec :
    (∀ (labels : List (List ℤ)) (row : List ℤ), row ∈ labels →
        rowSpan row ≤ logits_to_keep labels)
    ∧ (∀ labels : List (List ℤ), labels ≠ [] →
        ∃ row ∈ labels, logits_to_keep labels = rowSpan row)
    ∧ argmaxFirst (neSentinel [-100, -100, 5, 6, -100]) = 2
    ∧ argmaxFirst (neSentinel [-100, 3, 4, 5, 6]) = 1
    ∧ rowSpan [-100, -100, 5, 6, -100] = 3
    ∧ rowSpan [-100, 3, 4, 5, 6] = 4
    ∧ logits_to_keep [[-100, -100, 5, 6, -100], [-100, 3, 4, 5, 6]] = 4 := by
  refine ⟨?_, ?_, by decide, by decide, by decide, by decide, by decide⟩
  · intro labels row hrow
    exact le_foldr_max_of_mem _ _ (List.mem_map_of_mem rowSpan hrow)
  · intro labels hne
    have hmem := foldr_max_mem (labels.map rowSpan) (by simpa using hne)
    rcases List.mem_map.mp hmem with ⟨row, hrow, heq⟩
    exact ⟨row, hrow, heq.symm⟩

/-- Witness for C4: the bound and attainment instantiated on the concrete
two-row batch from the claim. -/
theorem logits_to_keep_spec_witness :
    rowSpan [-100, 3, 4, 5, 6] ≤ logits_to_keep [[-100, -100, 5, 6, -100], [-100, 3, 4, 5, 6]]
    ∧ ∃ row ∈ [[-100, -100, 5, 6, -100], [-100, 3, 4, 5, 6]],
        logits_to_keep [[-100, -100, 5, 6, -100], [-100, 3, 4, 5, 6]] = rowSpan row :=
  ⟨logits_to_keep_spec.1 _ _ (by simp),
   logits_to_keep_spec.2.1 _ (by simp)⟩

/-- C8: for any batch of label rows, the row sum of the completion mask
built from the computed logits_to_keep equals the number of non-sentinel
labels in the trailing logits_to_keep columns of that row. -/
theorem completion_mask_sum_eq_nonsentinel_count
    (labels : List (List ℤ)) (row : List ℤ) (_hrow : row ∈ labels) :
    maskSum (completion_mask (logits_to_keep labels) row)
      = (trailingSlice (logits_to_keep labels) row).countP (fun x => decide (x ≠ -100)) := by
  rw [maskSum_eq_countP, completion_mask, List.countP_map]
  rfl

/-- Witness for C8: the mask-sum identity on the concrete two-row batch. -/
theorem completion_mask_sum_eq_nonsentinel_count_witness :
    maskSum (completion_mask (logits_to_keep [[-100, -100, 5, 6, -100], [-100, 3, 4, 5, 6]])
        [-100, -100, 5, 6, -100])
      = (trailingSlice (logits_to_keep [[-100, -100, 5, 6, -100], [-100, 3, 4, 5, 6]])
        [-100, -100, 5, 6, -100]).countP (fun x => decide (x ≠ -100)) :=
  completion_mask_sum_eq_nonsentinel_count _ _ (by simp)

/-! ## Construction-time configuration checks (init, lines 49-102) -/

/-- possible_values on line 89 / 97: the Python list comprehension
[n_gen for n_gen in range(2, global_batch_size + 1) if
global_batch_size % n_gen == 0]. -/
def possible_values (global_batch_size : ℕ) : List ℕ :=
  (List.range' 2 (global_batch_size - 1)).filter (fun n => global_batch_size % n == 0)

/-- The two divisibility checks of lines 87-102: the train check always
runs; the eval check runs when the evaluation strategy is enabled.  Each
raises (error) when num_generations is not among the possible values for
the corresponding global batch size. -/
def init_batch_check (num_processes per_device_train_batch_size per_device_eval_batch_size
    num_generations : ℕ) (eval_enabled : Bool) : Except String Unit :=
  if num_generations ∈ possible_values (per_device_train_batch_size * num_processes) then
    if eval_enabled then
      if num_generations ∈ possible_values (per_device_eval_batch_size * num_processes) then
        Except.ok ()
      else
        Except.error "eval batch size not divisible by num_generations"
    else
      Except.ok ()
  else
    Except.error "train batch size not divisible by num_generations"

lemma mem_possible_values_mod (g gbs : ℕ) (h : g ∈ possible_values gbs) : gbs % g = 0 := by
  have := (List.mem_filter.mp h).2
  simpa using this

lemma except_isOk_ok {ε α : Type} (v : α) : (Except.ok v : Except ε α).isOk = true := rfl

lemma except_isOk_error {ε α : Type} (e : ε) : (Except.error e : Except ε α).isOk = false := rfl

/-- C5: if the check passes then num_generations divides both the global
train batch size and (when evaluation is enabled) the global eval batch
size; conversely, a violation of either required divisibility makes the
construction-time check fail. -/
theorem init_batch_check_divisibility (num_processes pdt pde g : ℕ) (ev : Bool) :
    ((init_batch_check num_processes pdt pde g ev).isOk = true →
      (pdt * num_processes) % g = 0 ∧ (ev = true → (pde * num_processes) % g = 0))
    ∧ ((pdt * num_processes) % g ≠ 0 →
        (init_batch_check num_processes pdt pde g ev).isOk = false)
    ∧ (ev = true → (pde * num_processes) % g ≠ 0 →
        (init_batch_check num_processes pdt pde g ev).isOk = false) := by
  unfold init_batch_check
  by_cases h1 : g ∈ possible_values (pdt * num_processes)
  · have hd1 := mem_possible_values_mod g _ h1
    by_cases h2 : g ∈ possible_values (pde * num_processes)
    · have hd2 := mem_possible_values_mod g _ h2
      cases ev <;> simp [h1, h2, hd1, hd2, except_isOk_ok]
    · cases ev <;> simp [h1, h2, hd1, except_isOk_ok, except_isOk_error]
  · cases ev <;> simp [h1, except_isOk_error]

/-- Witness for C5: with 1 process, train batch 4, eval batch 6,
num_generations 2 and evaluation enabled the check passes and both
divisibilities hold; with train batch 3 and num_generations 2 the check
fails. -/
theorem init_batch_check_divisibility_witness :
    ((4 * 1) % 2 = 0 ∧ (true = true → (6 * 1) % 2 = 0))
    ∧ (init_batch_check 1 3 6 2 true).isOk = false :=
  ⟨(init_batch_check_divisibility 1 4 6 2 true).1 (by decide),
   (init_batch_check_divisibility 1 3 6 2 true).2.1 (by decide)⟩

/-! ## Reward-source validation (init, lines 46-59) -/

/-- A configured reward source as passed to the constructor: either a
name to be looked up in the orms registry, or an already-callable
object. -/
inductive RewardSourceArg : Type where
  | named (s : String)
  | callableSource
deriving DecidableEq

/-- The result of processing one reward source: a registry class
instantiated from its name, or the callable kept as-is. -/
inductive RewardSourceRes : Type where
  | constructed (s : String)
  | callableSource
deriving DecidableEq

/-- Successful processing of one source, mirroring the loop body of
lines 50-57: names found in the registry are instantiated, callables are
kept. -/
def processRewardSource : RewardSourceArg → RewardSourceRes
  | RewardSourceArg.named s => RewardSourceRes.constructed s
  | RewardSourceArg.callableSource => RewardSourceRes.callableSource

/-- The constructor loop of lines 49-59: a name in the registry is
instantiated; anything that is neither in the registry nor callable
raises a ValueError at the first offender. -/
def validate_reward_funcs (orms : List String) :
    List RewardSourceArg → Except String (List RewardSourceRes)
  | [] => Except.ok []
  | RewardSourceArg.named s :: rest =>
    if s ∈ orms then
      (validate_reward_funcs orms rest).map (fun r => RewardSourceRes.constructed s :: r)
    else
      Except.error s
  | RewardSourceArg.callableSource :: rest =>
    (validate_reward_funcs orms rest).map (fun r => RewardSourceRes.callableSource :: r)

/-- A source is acceptable when it is a registry name or a callable. -/
def recognizedSource (orms : List String) : RewardSourceArg → Prop
  | RewardSourceArg.named s => s ∈ orms
  | RewardSourceArg.callableSource => True

/-- C6: construction-time validation succeeds exactly when every
configured reward source is a recognized registry name or a callable,
and on success each registry name has been instantiated and each
callable kept. -/
theorem validate_reward_funcs_spec (orms : List String) (funcs : List RewardSourceArg) :
    ((validate_reward_funcs orms funcs).isOk = true ↔
      ∀ f ∈ funcs, recognizedSource orms f)
    ∧ ((∀ f ∈ funcs, recognizedSource orms f) →
        validate_reward_funcs orms funcs = Except.ok (funcs.map processRewardSource)) := by
  induction funcs with
  | nil =>
    refine ⟨by simp [validate_reward_funcs, except_isOk_ok], ?_⟩
    intro _
    simp [validate_reward_funcs]
  | cons f rest ih =>
    have tail_of : (∀ x ∈ f :: rest, recognizedSource orms x) →
        validate_reward_funcs orms rest = Except.ok (rest.map processRewardSource) :=
      fun hall => ih.2 (fun x hx => hall x (List.mem_cons_of_mem _ hx))
    cases f with
    | named s =>
      by_cases hs : s ∈ orms
      · constructor
        · constructor
          · intro hok
            intro x hx
            rcases List.mem_cons.mp hx with rfl | hx'
            · exact hs
            · refine (ih.1).mp ?_ x hx'
              simp only [validate_reward_funcs, hs, if_true] at hok
              cases hrec : validate_reward_funcs orms rest with
              | ok v => exact except_isOk_ok v
              | error e =>
                rw [hrec] at hok
                simp [Except.map, except_isOk_error] at hok
          · intro hall
            have hrest := tail_of hall
            simp [validate_reward_funcs, hs, hrest, Except.map, except_isOk_ok]
        · intro hall
          have hrest := tail_of hall
          simp [validate_reward_funcs, hs, hrest, Except.map, processRewardSource]
      · constructor
        · constructor
          · intro hok
            simp only [validate_reward_funcs, hs, if_false] at hok
            simp [except_isOk_error] at hok
          · intro hall
            exact absurd (hall _ (List.mem_cons_self _ _)) hs
        · intro hall
          exact absurd (hall _ (List.mem_cons_self _ _)) hs
    | callableSource =>
      constructor
      · constructor
        · intro hok
          intro x hx
          rcases List.mem_cons.mp hx with rfl | hx'
          · trivial
          · refine (ih.1).mp ?_ x hx'
            simp only [validate_reward_funcs] at hok
            cases hrec : validate_reward_funcs orms rest with
            | ok v => exact except_isOk_ok v
            | error e =>
              rw [hrec] at hok
              simp [Except.map, except_isOk_error] at hok
        · intro hall
          have hrest := tail_of hall
          simp [validate_reward_funcs, hrest, Except.map, except_isOk_ok]
      · intro hall
        have hrest := tail_of hall
        simp [validate_reward_funcs, hrest, Except.map, processRewardSource]

/-- Witness for C6: an unrecognized non-callable name makes validation
fail, while a recognized name plus a callable succeeds with the name
instantiated. -/
theorem validate_reward_funcs_spec_witness :
    ((validate_reward_funcs ["accuracy"]
        [RewardSourceArg.named "mystery"]).isOk = true ↔
      ∀ f ∈ [RewardSourceArg.named "mystery"], recognizedSource ["accuracy"] f)
    ∧ validate_reward_funcs ["accuracy"]
        [RewardSourceArg.named "accuracy", RewardSourceArg.callableSource]
      = Except.ok [RewardSourceRes.constructed "accuracy", RewardSourceRes.callableSource] :=
  ⟨(validate_reward_funcs_spec ["accuracy"] [RewardSourceArg.named "mystery"]).1,
   (validate_reward_funcs_spec ["accuracy"]
      [RewardSourceArg.named "accuracy", RewardSourceArg.callableSource]).2
      (by intro f hf
          rcases List.mem_cons.mp hf with rfl | hf'
          · simp [recognizedSource]
          · rcases List.mem_cons.mp hf' with rfl | hf''
            · trivial
            · cases hf'')⟩

/-! ## Reward weighting (lines 69-76 and 262-264) -/

/-- Weighted rewards, line 264: per gathered row, the elementwise product
with the weight vector summed over the reward-function dimension. -/
noncomputable def weighted_rewards (rewards_per_func : List (List ℝ)) (reward_weights : List ℝ) :
    List ℝ :=
  rewards_per_func.map (fun row => (List.zipWith (fun a b => a * b) row reward_weights).sum)

/-- Default reward weights, line 76: torch.ones over the reward functions. -/
noncomputable def default_reward_weights (n : ℕ) : List ℝ :=
  List.replicate n 1

lemma zipWith_mul_sum_eq_range_sum (a b : List ℝ) :
    (List.zipWith (fun x y => x * y) a b).sum
      = ∑ i ∈ Finset.range (min a.length b.length), a.getD i 0 * b.getD i 0 := by
  induction a generalizing b with
  | nil => simp
  | cons x xs ih =>
    cases b with
    | nil => simp
    | cons y ys =>
      have : min (x :: xs).length (y :: ys).length = min xs.length ys.length + 1 := by
        simp [Nat.succ_min_succ]
      rw [this, Finset.sum_range_succ']
      simp only [List.zipWith, List.sum_cons, List.getD_cons_succ, List.getD_cons_zero]
      rw [ih ys]
      ring

lemma zipWith_ones_sum (row : List ℝ) :
    (List.zipWith (fun x y => x * y) row (default_reward_weights row.length)).sum = row.sum := by
  induction row with
  | nil => simp
  | cons x xs ih =>
    simp only [default_reward_weights, List.length_cons, List.replicate, List.zipWith,
      List.sum_cons, mul_one]
    rw [show List.replicate xs.length (1 : ℝ) = default_reward_weights xs.length from rfl, ih]

/-- C7: each gathered sample's final scalar reward is the dot product of
its reward-matrix row with the weight vector; with the default all-ones
weights it is the plain row sum; weights [0.5, 0.5] over the matrix
[[2,4],[0,0]] give [3, 0]. -/
theorem weighted_rewards_dot :
    (∀ (rewards_per_func : List (List ℝ)) (w : List ℝ),
        weighted_rewards rewards_per_func w
          = rewards_per_func.map
              (fun row => ∑ i ∈ Finset.range (min row.length w.length), row.getD i 0 * w.getD i 0))
    ∧ (∀ row : List ℝ,
        (List.zipWith (fun x y => x * y) row (default_reward_weights row.length)).sum = row.sum)
    ∧ weighted_rewards [[2, 4], [0, 0]] [0.5, 0.5] = [3, 0] := by
  refine ⟨?_, zipWith_ones_sum, ?_⟩
  · intro m w
    simp only [weighted_rewards]
    exact List.map_congr_left (fun row _ => zipWith_mul_sum_eq_range_sum row w)
  · norm_num [weighted_rewards]

/-! ## Rank-major gather and re-slice (lines 215-221 and 270-274) -/

/-- The rank-major gathered order: process 0's shard first, then process
1's, and so on (gather_object on line 195, gather on line 262). -/
def gathered {α : Type*} (shards : List (List α)) : List α :=
  shards.flatten

/-- process_slice of lines 216-219: the half-open index range
[rank * local_size, (rank + 1) * local_size) of a gathered list. -/
def process_slice {α : Type*} (local_size rank : ℕ) (xs : List α) : List α :=
  (xs.drop (rank * local_size)).take local_size

/-- C9: gathering per-process shards in rank-major order and re-slicing
with the rank-major offset formula returns every process exactly its own
shard, for any process count, shard size and shard contents. -/
theorem process_slice_gathered_roundtrip {α : Type*} (shards : List (List α)) (k rank : ℕ)
    (hlen : ∀ s ∈ shards, s.length = k) (hrank : rank < shards.length) :
    process_slice k rank (gathered shards) = shards.get ⟨rank, hrank⟩ := by
  induction shards generalizing rank with
  | nil => cases hrank
  | cons s rest ih =>
    cases rank with
    | zero =>
      have hs : s.length = k := hlen s (List.mem_cons_self _ _)
      simp only [process_slice, gathered, List.flatten_cons, Nat.zero_mul, List.drop_zero,
        List.get]
      rw [← hs, List.take_left]
    | succ r =>
      have hs : s.length = k := hlen s (List.mem_cons_self _ _)
      have hdrop : (gathered (s :: rest)).drop ((r + 1) * k) = (gathered rest).drop (r * k) := by
        simp only [gathered, List.flatten_cons]
        rw [show (r + 1) * k = s.length + r * k by rw [hs]; ring, List.drop_append]
      have hr : r < rest.length := Nat.succ_lt_succ_iff.mp hrank
      simp only [process_slice, hdrop, List.get]
      exact ih r (fun t ht => hlen t (List.mem_cons_of_mem _ ht)) hr

/-- Witness for C9: two shards of size 2; rank 1 recovers its own shard
from the gathered list. -/
theorem process_slice_gathered_roundtrip_witness :
    process_slice 2 1 (gathered [[10, 20], [30, 40]]) = ([[10, 20], [30, 40]] : List (List ℕ)).get ⟨1, by decide⟩ :=
  process_slice_gathered_roundtrip [[10, 20], [30, 40]] 2 1 (by decide) (by decide)

/-! ## Masked-mean division safety (lines 326 and 332) -/

/-- C10: when every row of the batch has at least one true completion-mask
entry, every masked-mean divisor of the loss (and of the mean-KL metric,
which uses the same divisor) is nonzero and the row quotient really is
the masked sum divided by the mask count; a row with an all-false mask
has divisor exactly zero. -/
theorem masked_mean_divisor_safety :
    (∀ masks : List (List Bool), (∀ m ∈ masks, ∃ b ∈ m, b = true) →
        ∀ m ∈ masks, ((maskSum m : ℝ) ≠ 0))
    ∧ (∀ (vals : List ℝ) (m : List Bool), (∃ b ∈ m, b = true) →
        masked_row_mean vals m * (maskSum m : ℝ)
          = (List.zipWith (fun v b => v * (if b then (1 : ℝ) else 0)) vals m).sum)
    ∧ (∀ m : List Bool, (∀ b ∈ m, b = false) → (maskSum m : ℝ) = 0) := by
  have hpos : ∀ m : List Bool, (∃ b ∈ m, b = true) → (maskSum m : ℝ) ≠ 0 := by
    intro m hex
    have h1 : 0 < m.countP id := List.countP_pos_iff.mpr (by simpa using hex)
    rw [maskSum_eq_countP]
    exact Nat.cast_ne_zero.mpr (by omega)
  refine ⟨fun masks hall m hm => hpos m (hall m hm), ?_, ?_⟩
  · intro vals m hex
    exact div_mul_cancel₀ _ (hpos m hex)
  · intro m hfalse
    have : m.countP id = 0 := List.countP_eq_zero.mpr (by
      intro b hb
      simp [hfalse b hb])
    rw [maskSum_eq_countP, this]
    norm_num

/-- Witness for C10: a batch with one row whose mask holds a true entry
has a nonzero divisor there, the quotient identity holds on it, and the
all-false mask row has divisor zero. -/
theorem masked_mean_divisor_safety_witness :
    ((maskSum [true, false] : ℝ) ≠ 0)
    ∧ masked_row_mean [2, 7] [true, false] * (maskSum [true, false] : ℝ)
        = (List.zipWith (fun v b => v * (if b then (1 : ℝ) else 0)) [2, 7] [true, false]).sum
    ∧ ((maskSum [false, false] : ℝ) = 0) :=
  ⟨masked_mean_divisor_safety.1 [[true, false]] (by simp) [true, false] (by simp),
   masked_mean_divisor_safety.2.1 [2, 7] [true, false] (by simp),
   masked_mean_divisor_safety.2.2 [false, false] (by simp)⟩

/-! ## Advantage normalization (lines 266-273) -/

/-- torch .mean(dim=1) over one group (line 267). -/
noncomputable def listMean (xs : List ℝ) : ℝ :=
  xs.sum / (xs.length : ℝ)

/-- Unbiased sample variance, the default of torch .std(dim=1) on
line 268: squared deviations from the group mean summed, divided by
(n - 1). -/
noncomputable def sampleVar (xs : List ℝ) : ℝ :=
  (xs.map (fun x => (x - listMean xs) ^ 2)).sum / ((xs.length - 1 : ℕ) : ℝ)

/-- torch .std(dim=1) on line 268: square root of the unbiased sample
variance. -/
noncomputable def sampleStd (xs : List ℝ) : ℝ :=
  Real.sqrt (sampleVar xs)

/-- rewards.view(-1, num_generations) of lines 267-268: the reward vector
split into consecutive groups of num_generations entries. -/
def toGroups (G : ℕ) (xs : List ℝ) : List (List ℝ) :=
  if h : xs.length = 0 ∨ G = 0 then [] else xs.take G :: toGroups G (xs.drop G)
termination_by xs.length
decreasing_by
  push_neg at h
  simp only [List.length_drop]
  omega

/-- repeat_interleave(num_generations, dim=0) of lines 271-272: each
per-group statistic broadcast back across its group's rows. -/
def repeatInterleave (G : ℕ) (xs : List ℝ) : List ℝ :=
  xs.flatMap (fun x => List.replicate G x)

/-- advantages before the process slice, lines 266-273:
(rewards - mean_grouped_rewards) / (std_grouped_rewards + 1e-4) with the
grouped statistics broadcast by repeat_interleave. -/
noncomputable def advantages (num_generations : ℕ) (rewards : List ℝ) : List ℝ :=
  let groups := toGroups num_generations rewards
  let mean_grouped_rewards := repeatInterleave num_generations (groups.map listMean)
  let std_grouped_rewards := repeatInterleave num_generations (groups.map sampleStd)
  List.zipWith (fun r ms => (r - ms.1) / (ms.2 + 1e-4))
    rewards (mean_grouped_rewards.zip std_grouped_rewards)

lemma toGroups_nil (G : ℕ) : toGroups G [] = [] := by
  rw [toGroups]
  simp

lemma toGroups_cons (G : ℕ) (hG : G ≠ 0) (g : List ℝ) (hg : g.length = G) (t : List ℝ) :
    toGroups G (g ++ t) = g :: toGroups G t := by
  have hne : ¬((g ++ t).length = 0 ∨ G = 0) := by
    push_neg
    refine ⟨?_, hG⟩
    simp only [List.length_append, hg]
    omega
  rw [toGroups, dif_neg hne]
  congr 1
  · rw [← hg, List.take_left]
  · rw [← hg, List.drop_left]

lemma zip_replicate_same {α β : Type*} (n : ℕ) (a : α) (b : β) :
    (List.replicate n a).zip (List.replicate n b) = List.replicate n (a, b) := by
  induction n with
  | zero => rfl
  | succ m ih => simp [List.replicate_succ, ih]

lemma zipWith_replicate_of_length {α β γ : Type*} (f : α → β → γ) (l : List α) (n : ℕ)
    (c : β) (h : l.length = n) :
    List.zipWith f l (List.replicate n c) = l.map (fun x => f x c) := by
  subst h
  induction l with
  | nil => rfl
  | cons x xs ih => simp [List.replicate_succ, ih]

lemma advantages_flatten (G : ℕ) (hG : G ≠ 0) (groups : List (List ℝ))
    (hlen : ∀ g ∈ groups, g.length = G) :
    advantages G groups.flatten
      = groups.flatMap (fun g => g.map (fun r => (r - listMean g) / (sampleStd g + 1e-4))) := by
  induction groups with
  | nil => simp [advantages, toGroups_nil, repeatInterleave]
  | cons g rest ih =>
    have hg : g.length = G := hlen g (List.mem_cons_self _ _)
    have hrest : ∀ x ∈ rest, x.length = G := fun x hx => hlen x (List.mem_cons_of_mem _ hx)
    have ih' := ih hrest
    simp only [advantages, repeatInterleave] at ih' ⊢
    rw [List.flatten_cons, toGroups_cons G hG g hg rest.flatten]
    simp only [List.map_cons, List.flatMap_cons]
    rw [List.zip_append (by simp), List.zipWith_append _ _ _ _ _
        (by simp [hg, Nat.min_self]), zip_replicate_same,
        zipWith_replicate_of_length _ _ _ _ hg, ih']

lemma toGroups_example : toGroups 2 ([1, 3, 5, 5] : List ℝ) = [[1, 3], [5, 5]] := by
  have h1 := toGroups_cons 2 (by norm_num) ([1, 3] : List ℝ) rfl [5, 5]
  have h2 := toGroups_cons 2 (by norm_num) ([5, 5] : List ℝ) rfl []
  simp only [List.append_nil] at h2
  calc toGroups 2 ([1, 3, 5, 5] : List ℝ) = [1, 3] :: toGroups 2 [5, 5] := h1
    _ = [1, 3] :: ([5, 5] :: toGroups 2 []) := by rw [h2]
    _ = [[1, 3], [5, 5]] := by rw [toGroups_nil]

lemma mean_13 : listMean ([1, 3] : List ℝ) = 2 := by
  norm_num [listMean]

lemma mean_55 : listMean ([5, 5] : List ℝ) = 5 := by
  norm_num [listMean]

lemma var_13 : sampleVar ([1, 3] : List ℝ) = 2 := by
  norm_num [sampleVar, listMean]

lemma std_13 : sampleStd ([1, 3] : List ℝ) = Real.sqrt 2 := by
  rw [sampleStd, var_13]

lemma std_55 : sampleStd ([5, 5] : List ℝ) = 0 := by
  have hv : sampleVar ([5, 5] : List ℝ) = 0 := by
    norm_num [sampleVar, listMean]
  rw [sampleStd, hv, Real.sqrt_zero]

lemma sqrt_two_gt_one : (1 : ℝ) < Real.sqrt 2 := by
  nlinarith [Real.sq_sqrt (show (0 : ℝ) ≤ 2 by norm_num), Real.sqrt_nonneg 2]

lemma advantages_example :
    advantages 2 [1, 3, 5, 5]
      = [-(1 / (Real.sqrt 2 + 1e-4)), 1 / (Real.sqrt 2 + 1e-4), 0, 0] := by
  have h := advantages_flatten 2 (by norm_num) [[1, 3], [5, 5]] (by
    intro g hg
    rcases List.mem_cons.mp hg with rfl | hg'
    · rfl
    · rcases List.mem_cons.mp hg' with rfl | hg''
      · rfl
      · cases hg'')
  have hfl : ([[1, 3], [5, 5]] : List (List ℝ)).flatten = [1, 3, 5, 5] := by simp
  rw [hfl] at h
  rw [h]
  simp only [List.flatMap_cons, List.flatMap_nil, List.map_cons, List.map_nil,
    mean_13, std_13, mean_55, std_55, List.append_nil]
  norm_num
  ring

/-- C1 (counterexample): for num_generations = 2 and rewards
[1, 3, 5, 5] the first group's torch std is sqrt 2 (unbiased sample
standard deviation), not 1, so the group stds are not [1, 0] and the
advantages are not [-1, 1, 0, 0] as the claimed scenario states. -/
theorem advantage_scenario_counterexample :
    sampleStd [1, 3] ≠ 1 ∧ advantages 2 [1, 3, 5, 5] ≠ [-1, 1, 0, 0] := by
  have hgt := sqrt_two_gt_one
  constructor
  · rw [std_13]
    intro h
    rw [h] at hgt
    exact lt_irrefl 1 hgt
  · rw [advantages_example]
    intro h
    injection h with h0 _
    have h1 : 1 / (Real.sqrt 2 + 1e-4) = 1 := neg_inj.mp h0
    have hd : (1 : ℝ) < Real.sqrt 2 + 1e-4 := by
      have : (0 : ℝ) < 1e-4 := by norm_num
      linarith
    have hlt : 1 / (Real.sqrt 2 + 1e-4) < 1 :=
      (div_lt_one (by linarith)).mpr hd
    linarith

/-- C1 (amended): each advantage equals (reward - group_mean) divided by
(group_std + 1e-4) where group_std is the unbiased sample standard
deviation, for every grouping of the gathered rewards into groups of
num_generations consecutive rows; for num_generations = 2 and rewards
[1, 3, 5, 5] the group means are [2, 5], the group stds are [sqrt 2, 0],
and the advantages are
[-1/(sqrt 2 + 1e-4), 1/(sqrt 2 + 1e-4), 0, 0]. -/
theorem advantages_spec_amended (G : ℕ) (hG : G ≠ 0) (groups : List (List ℝ))
    (hlen : ∀ g ∈ groups, g.length = G) :
    advantages G groups.flatten
      = groups.flatMap (fun g => g.map (fun r => (r - listMean g) / (sampleStd g + 1e-4)))
    ∧ (toGroups 2 [1, 3, 5, 5]).map listMean = [2, 5]
    ∧ (toGroups 2 [1, 3, 5, 5]).map sampleStd = [Real.sqrt 2, 0]
    ∧ advantages 2 [1, 3, 5, 5]
        = [-(1 / (Real.sqrt 2 + 1e-4)), 1 / (Real.sqrt 2 + 1e-4), 0, 0] := by
  refine ⟨advantages_flatten G hG groups hlen, ?_, ?_, advantages_example⟩
  · rw [toGroups_example]
    simp [mean_13, mean_55]
  · rw [toGroups_example]
    simp [std_13, std_55]

/-- Witness for amended C1: the grouped-advantage formula instantiated on
the two concrete groups [1, 3] and [5, 5]. -/
theorem advantages_spec_amended_witness :
    advantages 2 ([[1, 3], [5, 5]] : List (List ℝ)).flatten
      = [[1, 3], [5, 5]].flatMap
          (fun g => g.map (fun r => (r - listMean g) / (sampleStd g + 1e-4))) :=
  (advantages_spec_amended 2 (by norm_num) [[1, 3], [5, 5]]
    (by intro g hg
        rcases List.mem_cons.mp hg with rfl | hg'
        · rfl
        · rcases List.mem_cons.mp hg' with rfl | hg''
          · rfl
          · cases hg'')).1
